import Mathlib

/-!
Verification development for the weekly estimated-vs-actual hours tracker
(streamlit_chart_app.py).  The pandas/streamlit program is shallowly embedded:
spreadsheet cells and column headers become the inductive type `Val`, a data
frame becomes `DF`, the persisted tracker becomes a list of (date, hours)
pairs, and CSV persistence becomes explicit character-list serialization.
Numeric cell values are modelled as integers (the program's floats carry no
claim-relevant fractional behaviour); a missing value (NaN) is the explicit
constructor `Val.vnan` / `Option.none`.  A pandas operation that raises is
modelled as an `Option`-returning function yielding `none`.
-/

/-- Digit character for a single decimal digit (0..9). -/
def digitChar10 (d : Nat) : Char :=
  match d with
  | 0 => '0' | 1 => '1' | 2 => '2' | 3 => '3' | 4 => '4'
  | 5 => '5' | 6 => '6' | 7 => '7' | 8 => '8' | _ => '9'

/-- Numeric value of a digit character. -/
def digitVal (c : Char) : Nat := c.toNat - 48

/-- Fuel-driven big-endian decimal digits of a number (fuel at least the
number itself suffices). -/
def natCharsAux : Nat → Nat → List Char
  | 0, _ => []
  | _ + 1, 0 => []
  | fuel + 1, n + 1 =>
    natCharsAux fuel ((n + 1) / 10) ++ [digitChar10 ((n + 1) % 10)]

/-- Decimal representation of a natural number, as written by the program's
CSV writer. -/
def natChars (n : Nat) : List Char :=
  if n = 0 then ['0'] else natCharsAux n n

/-- Left-pad a character list with zeros up to width k. -/
def padChars (k : Nat) (cs : List Char) : List Char :=
  List.replicate (k - cs.length) '0' ++ cs

/-- Zero-padded fixed-width decimal rendering (dates print as YYYY-MM-DD). -/
def fmtNat (k n : Nat) : List Char := padChars k (natChars n)

/-- Split a character list at every occurrence of the separator. -/
def splitOnChar (c : Char) : List Char → List (List Char)
  | [] => [[]]
  | x :: xs =>
    if x = c then [] :: splitOnChar c xs
    else
      match splitOnChar c xs with
      | [] => [[x]]
      | f :: r => (x :: f) :: r

/-- Decimal parse of a nonempty all-digit character list. -/
def parseNat? (cs : List Char) : Option Nat :=
  if cs.isEmpty then none
  else if cs.all Char.isDigit then
    some (cs.foldl (fun a c => a * 10 + digitVal c) 0)
  else none

/-- Python strip(): drop whitespace from both ends. -/
def trimChars (cs : List Char) : List Char :=
  ((cs.dropWhile Char.isWhitespace).reverse.dropWhile Char.isWhitespace).reverse

/-- Python lower() on the ASCII range (the only range the program's literal
comparisons exercise). -/
def lowerChar (c : Char) : Char :=
  match c with
  | 'A' => 'a' | 'B' => 'b' | 'C' => 'c' | 'D' => 'd' | 'E' => 'e'
  | 'F' => 'f' | 'G' => 'g' | 'H' => 'h' | 'I' => 'i' | 'J' => 'j'
  | 'K' => 'k' | 'L' => 'l' | 'M' => 'm' | 'N' => 'n' | 'O' => 'o'
  | 'P' => 'p' | 'Q' => 'q' | 'R' => 'r' | 'S' => 's' | 'T' => 't'
  | 'U' => 'u' | 'V' => 'v' | 'W' => 'w' | 'X' => 'x' | 'Y' => 'y'
  | 'Z' => 'z' | _ => c

/-- strip().lower() of a cell's string form. -/
def normChars (cs : List Char) : List Char := (trimChars cs).map lowerChar

/-- Option-valued map over a list, failing if any element fails. -/
def mapO (f : α → Option β) : List α → Option (List β)
  | [] => some []
  | a :: l =>
    match f a, mapO f l with
    | some b, some bs => some (b :: bs)
    | _, _ => none

/-- A calendar day, the WeekKey of the data model (pandas Timestamp at
midnight). -/
structure Date where
  year : Nat
  month : Nat
  day : Nat
  deriving DecidableEq, Repr

/-- Chronological sort key of a date; injective on valid calendar dates. -/
def Date.key (d : Date) : Nat := d.year * 10000 + d.month * 100 + d.day

/-- Gregorian leap-year rule. -/
def isLeapYear (y : Nat) : Bool :=
  (y % 4 == 0 && y % 100 != 0) || y % 400 == 0

/-- Number of days in a month. -/
def daysInMonth (y m : Nat) : Nat :=
  if m = 2 then (if isLeapYear y then 29 else 28)
  else if m = 4 ∨ m = 6 ∨ m = 9 ∨ m = 11 then 30
  else 31

/-- A calendar date that pandas to_datetime accepts and that a pandas
Timestamp can represent (the representable year range is approximated
conservatively). -/
def validDate (d : Date) : Bool :=
  decide (1 ≤ d.month) && decide (d.month ≤ 12) && decide (1 ≤ d.day) &&
    decide (d.day ≤ daysInMonth d.year d.month) &&
    decide (1678 ≤ d.year) && decide (d.year ≤ 2261)

/-- Parse a YYYY-MM-DD character sequence into a valid date, as
pandas to_datetime does (raising, i.e. none, on an invalid calendar day). -/
def parseDateChars (cs : List Char) : Option Date :=
  match splitOnChar '-' cs with
  | [a, b, c] =>
    match parseNat? a, parseNat? b, parseNat? c with
    | some y, some m, some dd =>
      if validDate ⟨y, m, dd⟩ then some ⟨y, m, dd⟩ else none
    | _, _, _ => none
  | _ => none

/-- The YYYY-MM-DD rendering of a date (what pandas writes to the CSV). -/
def dateChars (d : Date) : List Char :=
  fmtNat 4 d.year ++ ('-' :: (fmtNat 2 d.month ++ ('-' :: fmtNat 2 d.day)))

/-- Decimal rendering of an integer value. -/
def intChars (n : Int) : List Char :=
  if n < 0 then '-' :: natChars n.natAbs else natChars n.toNat

/-- Parse an optionally negated decimal integer. -/
def parseInt? (cs : List Char) : Option Int :=
  match cs with
  | [] => none
  | c :: rest =>
    if c = '-' then (parseNat? rest).map (fun m => -(m : Int))
    else (parseNat? (c :: rest)).map (fun m => (m : Int))

/-- A spreadsheet cell or column header: a string, a number, a native
timestamp, or a missing value (NaN). -/
inductive Val where
  | vstr (s : String)
  | vnum (n : Int)
  | vdate (d : Date)
  | vnan
  deriving DecidableEq, Repr

/-- Python str() of a cell as a character sequence: strings verbatim,
numbers printed, a Timestamp printed with its midnight time part, NaN
printed as nan. -/
def Val.toChars : Val → List Char
  | .vstr s => s.toList
  | .vnum n => intChars n
  | .vdate d => dateChars d ++ " 00:00:00".toList
  | .vnan => "nan".toList

/-- The helper normalize_colname: str(s).strip().lower(). -/
def normalize_colname (v : Val) : List Char := normChars v.toChars

/-- pd.to_numeric with errors coerce: numbers pass through, numeric text is
parsed, everything else becomes NaN (none). -/
def toNumeric : Val → Option Int
  | .vnum n => some n
  | .vstr s => parseInt? (trimChars s.toList)
  | _ => none

/-- The regex DATE_COL_PATTERN, exactly four digits, dash, two digits, dash,
two digits, matched against a whole string. -/
def isDatePattern (cs : List Char) : Bool :=
  match cs with
  | [a, b, c, d, e, f, g, h, i, j] =>
    a.isDigit && b.isDigit && c.isDigit && d.isDigit && decide (e = '-') &&
      f.isDigit && g.isDigit && decide (h = '-') && i.isDigit && j.isDigit
  | _ => false

/-- pd.to_datetime applied to the str() of a header that matches the date
pattern after trimming. -/
def parseDateStr (s : String) : Option Date :=
  let t := trimChars s.toList
  if isDatePattern t then parseDateChars t else none

/-- Parsed date of a column header: a pattern-matching string header parses
to its literal date, a native Timestamp header is already a date. -/
def parseColDate : Val → Option Date
  | .vstr s => parseDateStr s
  | .vdate d => some d
  | _ => none

/-- Chronological sort key used by detect_week_cols once every collected
header is known to parse. -/
def sortKeyD (c : Val) : Nat := ((parseColDate c).map Date.key).getD 0

/-- Ordering of column headers by parsed date. -/
def valLE (a b : Val) : Prop := sortKeyD a ≤ sortKeyD b

instance : DecidableRel valLE := fun a b => Nat.decLe (sortKeyD a) (sortKeyD b)

instance : IsTotal Val valLE := ⟨fun _ _ => Nat.le_total _ _⟩

instance : IsTrans Val valLE := ⟨fun _ _ _ h1 h2 => Nat.le_trans h1 h2⟩

/-- Pandas equality of a collected header against a Timestamp header: a
Timestamp equals a string that parses to the same instant. -/
def pandasEqDate (x : Val) (d : Date) : Bool :=
  match x with
  | .vstr s => match parseDateStr s with
    | some d2 => decide (d2 = d)
    | none => false
  | .vdate d2 => decide (d2 = d)
  | _ => false

/-- A raw data frame: column headers plus rows of cells. -/
structure DF where
  cols : List Val
  rows : List (List Val)
  deriving DecidableEq, Repr

/-- Header test for the literal project-name column. -/
def isProjHeader (v : Val) : Bool :=
  decide (normalize_colname v = "project full name".toList)

/-- detect_project_col.  Returns the chosen column together with the data
frame the caller subsequently sees (the source mutates df in place when it
promotes the first data row to the header).  none models the IndexError the
source raises on a table with no rows (df.iloc at 0) or with no columns
(df.columns at 0). -/
def detect_project_col (df : DF) : Option (Val × DF) :=
  match df.cols.find? isProjHeader with
  | some c => some (c, df)
  | none =>
    match df.rows with
    | [] => none
    | r0 :: rest =>
      if r0.any (fun v => decide (normChars v.toChars = "project full name".toList)) then
        match r0.find? isProjHeader with
        | some c => some (c, DF.mk r0 rest)
        | none =>
          match r0 with
          | c :: _ => some (c, DF.mk r0 rest)
          | [] => none
      else
        match df.cols with
        | c :: _ => some (c, df)
        | [] => none

/-- Bool test for a pattern-matching string header (first collection loop of
detect_week_cols). -/
def isPatternCol (c : Val) : Bool :=
  match c with
  | .vstr s => isDatePattern (trimChars s.toList)
  | _ => false

/-- Bool test for a native Timestamp header (second collection loop). -/
def isTsCol (c : Val) : Bool :=
  match c with
  | .vdate _ => true
  | _ => false

/-- A column the spec calls qualifying: date-pattern text or native
timestamp. -/
def qualifiesWeekCol (c : Val) : Bool := isPatternCol c || isTsCol c

/-- The second loop of detect_week_cols: append each Timestamp header not
already present (pandas equality) in the collected list. -/
def addTsCols (cols : List Val) (acc : List Val) : List Val :=
  cols.foldl
    (fun acc c =>
      match c with
      | .vdate d => if acc.any (fun x => pandasEqDate x d) then acc else acc ++ [.vdate d]
      | _ => acc)
    acc

/-- detect_week_cols: collect pattern-matching string headers, then
Timestamp headers not already collected, then sort ascending by parsed
date.  none models the exception pd.to_datetime raises while sorting when a
collected header is not a valid date. -/
def detect_week_cols (cols : List Val) : Option (List Val) :=
  let wcols := addTsCols cols (cols.filter isPatternCol)
  match mapO parseColDate wcols with
  | some _ => some (List.insertionSort valLE wcols)
  | none => none

/-- A baseline row as seen by the estimate extractor: the project-name cell
and the cells under the detected week columns, in order. -/
structure BRow where
  name : Val
  cells : List Val
  deriving DecidableEq, Repr

/-- Row test used by get_total_row_estimates. -/
def isTotalRow (r : BRow) : Bool :=
  decide (normChars r.name.toChars = "total".toList)

/-- Result of the estimate extractor: one coerced value per week column and
whether the fallback warning was emitted. -/
structure EstOut where
  values : List (Option Int)
  warned : Bool
  deriving DecidableEq, Repr

/-- Column-wise numeric sum over all rows, NaN and non-numeric cells
contributing zero (pandas sum with skipna). -/
def colSumAt (rows : List BRow) (j : Nat) : Int :=
  rows.foldl (fun a r => a + (((r.cells.get? j).bind toNumeric).getD 0)) 0

/-- get_total_row_estimates: the first row whose project cell normalizes to
total supplies the values, coerced to numeric; otherwise warn and sum every
row per week column. -/
def get_total_row_estimates (numWeeks : Nat) (rows : List BRow) : EstOut :=
  match rows.find? isTotalRow with
  | some r => ⟨r.cells.map toNumeric, false⟩
  | none => ⟨(List.range numWeeks).map (fun j => some (colSumAt rows j)), true⟩

/-- Rows whose first-column cell normalizes to total. -/
def lastTotalRow (rows : List (Val × Val)) : Option (Val × Val) :=
  (rows.filter (fun r => decide (normChars r.1.toChars = "total".toList))).getLast?

/-- Last row whose first-column cell is NaN. -/
def lastNanRow (rows : List (Val × Val)) : Option (Val × Val) :=
  (rows.filter (fun r => decide (r.1 = Val.vnan))).getLast?

/-- Numeric sum of the second column, non-numeric cells as zero. -/
def sumSecondCol (rows : List (Val × Val)) : Int :=
  rows.foldl (fun a r => a + (toNumeric r.2).getD 0) 0

/-- Third heuristic of the actual extractor: sum with a warning. -/
def extractFallbackSum (rows : List (Val × Val)) : Int × Bool :=
  (sumSecondCol rows, true)

/-- Second heuristic: the last NaN-labelled row's second column, falling
through to the sum when absent or non-numeric. -/
def extractNanRow (rows : List (Val × Val)) : Int × Bool :=
  match lastNanRow rows with
  | some r =>
    match toNumeric r.2 with
    | some v => (v, false)
    | none => extractFallbackSum rows
  | none => extractFallbackSum rows

/-- extract_actual_total_from_file: last Total-labelled row's second column
if it coerces, else the last NaN-labelled row's second column if it coerces,
else the column sum (with warning). -/
def extract_actual_total_from_file (rows : List (Val × Val)) : Int × Bool :=
  match lastTotalRow rows with
  | some r =>
    match toNumeric r.2 with
    | some v => (v, false)
    | none => extractNanRow rows
  | none => extractNanRow rows

/-- pandas drop_duplicates on the Week column keeping the last occurrence:
an entry survives iff no later entry has the same week. -/
def dedupKeepLast : List (Date × Int) → List (Date × Int)
  | [] => []
  | x :: xs =>
    if xs.any (fun y => decide (y.1.key = x.1.key)) then dedupKeepLast xs
    else x :: dedupKeepLast xs

/-- Ordering of tracker entries by week. -/
def trackerLE (a b : Date × Int) : Prop := a.1.key ≤ b.1.key

instance : DecidableRel trackerLE := fun a b => Nat.decLe a.1.key b.1.key

instance : IsTotal (Date × Int) trackerLE := ⟨fun _ _ => Nat.le_total _ _⟩

instance : IsTrans (Date × Int) trackerLE := ⟨fun _ _ _ h1 h2 => Nat.le_trans h1 h2⟩

/-- The tracker upsert (module level, lines 204 to 207): append the new
row, drop duplicate weeks keeping the last, sort ascending by week. -/
def upsert (t : List (Date × Int)) (w : Date) (v : Int) : List (Date × Int) :=
  List.insertionSort trackerLE (dedupKeepLast (t ++ [(w, v)]))

/-- The module-level merge (line 212): pd.merge how left on Week followed by
fillna 0.  Every estimate row is joined against all tracker rows with the
same week, defaulting both the estimate (if NaN) and the actual to zero. -/
def leftMergeFill (est : List (Date × Option Int)) (tr : List (Date × Int)) :
    List (Date × Int × Int) :=
  est.flatMap (fun p =>
    match tr.filter (fun q => decide (q.1.key = p.1.key)) with
    | [] => [(p.1, ((p.2).getD 0, 0))]
    | ms => ms.map (fun q => (p.1, ((p.2).getD 0, q.2))))

/-- Header line of the persisted tracker CSV. -/
def trackerHeader : List Char := "Week,Actual_Hours".toList

/-- One persisted CSV line: formatted date, comma, formatted value. -/
def serializeEntry (p : Date × Int) : List Char :=
  dateChars p.1 ++ ',' :: intChars p.2

/-- Parse one persisted CSV line back into a tracker entry. -/
def parseEntry (cs : List Char) : Option (Date × Int) :=
  match splitOnChar ',' cs with
  | [a, b] =>
    match parseDateChars a, parseInt? b with
    | some d, some v => some (d, v)
    | _, _ => none
  | _ => none

/-- Persist the tracker: full-file rewrite, header line then one line per
entry (df.to_csv). -/
def persistTracker (t : List (Date × Int)) : List (List Char) :=
  trackerHeader :: t.map serializeEntry

/-- Reload the tracker (pd.read_csv with parse_dates on Week). -/
def loadTracker (lines : List (List Char)) : Option (List (Date × Int)) :=
  match lines with
  | [] => none
  | h :: rest => if h = trackerHeader then mapO parseEntry rest else none

/-- Try to match the date regex at the head of a character list. -/
def matchDateAt (cs : List Char) : Option (List Char) :=
  match cs with
  | a :: b :: c :: d :: e :: f :: g :: h :: i :: j :: _ =>
    if a.isDigit && b.isDigit && c.isDigit && d.isDigit && decide (e = '-') &&
        f.isDigit && g.isDigit && decide (h = '-') && i.isDigit && j.isDigit then
      some [a, b, c, d, e, f, g, h, i, j]
    else none
  | _ => none

/-- re.search for the date token in the uploaded file name: first matching
position wins. -/
def findDateToken : List Char → Option (List Char)
  | [] => none
  | c :: cs =>
    match matchDateAt (c :: cs) with
    | some t => some t
    | none => findDateToken cs

/-- Cell of a row under a given column label (first matching label, missing
cells read as NaN). -/
def cellAt (cols : List Val) (row : List Val) (c : Val) : Val :=
  (row.get? (cols.indexOf c)).getD Val.vnan

/-- Project a raw frame onto the extractor's view: project-name cell plus
week-column cells per row. -/
def projRows (df : DF) (pc : Val) (wcols : List Val) : List BRow :=
  df.rows.map (fun row => ⟨cellAt df.cols row pc, wcols.map (cellAt df.cols row)⟩)

/-- Result of one successful actuals-processing run. -/
structure RunResult where
  est : List (Date × Option Int)
  combined : List (Date × Int × Int)
  deriving DecidableEq, Repr

/-- The actuals-processing pipeline (lines 164 to 212), with the persisted
tracker threaded explicitly.  Each fatal stop (detection failure, no week
columns, missing or invalid filename date token) returns the persisted
tracker unchanged; only the successful path rewrites it with the upserted
contents. -/
def process (baseline : DF) (tracker0 : List (Date × Int)) (fname : List Char)
    (actualRows : List (Val × Val)) : List (Date × Int) × Option RunResult :=
  match detect_project_col baseline with
  | none => (tracker0, none)
  | some (pc, df2) =>
    match detect_week_cols df2.cols with
    | none => (tracker0, none)
    | some [] => (tracker0, none)
    | some wcols =>
      let estVals := get_total_row_estimates wcols.length (projRows df2 pc wcols)
      let est := (wcols.map (fun c => (parseColDate c).getD ⟨2000, 1, 1⟩)).zip estVals.values
      let aval := (extract_actual_total_from_file actualRows).1
      match findDateToken fname with
      | none => (tracker0, none)
      | some tok =>
        match parseDateChars tok with
        | none => (tracker0, none)
        | some wk =>
          let tr2 := upsert tracker0 wk aval
          (tr2, some ⟨est, leftMergeFill est tr2⟩)

/-- Does the first data row contain the project-name literal (trimmed,
lower-cased)?  This is the promotion trigger of detect_project_col. -/
def firstRowHasLiteral (df : DF) : Bool :=
  match df.rows with
  | [] => false
  | r0 :: _ => r0.any (fun v => decide (normChars v.toChars = "project full name".toList))

/-- C2: with at least one total row (trimmed, case-insensitive match on the
project-name cell), the estimate extractor returns exactly the first such
row's cells coerced to numeric (non-numeric cells become none, the model of
NaN), no warning; all other rows are irrelevant, and with cells aligned to
the week columns the output has one entry per detected week column. -/
theorem C2_total_row_estimates (numWeeks : Nat) (pre post : List BRow) (r : BRow)
    (hpre : ∀ x ∈ pre, isTotalRow x = false) (hr : isTotalRow r = true) :
    get_total_row_estimates numWeeks (pre ++ r :: post) =
      ⟨r.cells.map toNumeric, false⟩ ∧
    (r.cells.length = numWeeks →
      (get_total_row_estimates numWeeks (pre ++ r :: post)).values.length = numWeeks) := by
  have hnone : pre.find? isTotalRow = none := by
    rw [List.find?_eq_none]
    intro x hx
    simp [hpre x hx]
  have hfind : (pre ++ r :: post).find? isTotalRow = some r := by
    rw [List.find?_append, hnone, Option.none_or]
    exact List.find?_cons_of_pos _ hr
  refine ⟨by simp [get_total_row_estimates, hfind], ?_⟩
  intro hlen
  simp [get_total_row_estimates, hfind, hlen]

/-- Witness for C2 on a concrete baseline: the first (unique) total row has
values 100 and a non-numeric cell; the other row is ignored and the
non-numeric cell becomes none. -/
theorem C2_total_row_estimates_witness :
    get_total_row_estimates 2
      [⟨Val.vstr "p1", [Val.vnum 1, Val.vnum 2]⟩,
       ⟨Val.vstr " TOTAL ", [Val.vnum 100, Val.vstr "abc"]⟩] =
      ⟨[some 100, none], false⟩ :=
  ((C2_total_row_estimates 2 [⟨Val.vstr "p1", [Val.vnum 1, Val.vnum 2]⟩] []
      ⟨Val.vstr " TOTAL ", [Val.vnum 100, Val.vstr "abc"]⟩
      (by decide) (by decide)).1).trans (by decide)

/-- C5: with no total row anywhere, the estimate extractor warns and returns
the per-week-column numeric sum over all rows, non-numeric cells counting
as zero. -/
theorem C5_fallback_sum (numWeeks : Nat) (rows : List BRow)
    (h : ∀ x ∈ rows, isTotalRow x = false) :
    get_total_row_estimates numWeeks rows =
      ⟨(List.range numWeeks).map (fun j => some (colSumAt rows j)), true⟩ := by
  have hfind : rows.find? isTotalRow = none := by
    rw [List.find?_eq_none]
    intro x hx
    simp [h x hx]
  simp [get_total_row_estimates, hfind]

/-- Witness for C5 on a concrete baseline with no total row: column sums
11 and 20, with the non-numeric cell contributing zero and the warning
flag set. -/
theorem C5_fallback_sum_witness :
    get_total_row_estimates 2
      [⟨Val.vstr "p1", [Val.vnum 1, Val.vstr "x"]⟩,
       ⟨Val.vstr "p2", [Val.vnum 10, Val.vnum 20]⟩] =
      ⟨[some 11, some 20], true⟩ :=
  (C5_fallback_sum 2
      [⟨Val.vstr "p1", [Val.vnum 1, Val.vstr "x"]⟩,
       ⟨Val.vstr "p2", [Val.vnum 10, Val.vnum 20]⟩]
      (by decide)).trans (by decide)

/-- C3: the actual extractor tries the prioritized heuristics in order, a
branch committing exactly when its candidate row exists and its second
column coerces to a number: the last total-labelled row wins if numeric,
otherwise the extractor falls through to the last NaN-labelled row, then to
the warned sum of the second column with non-numeric cells as zero. -/
theorem C3_actual_extractor_priority :
    (∀ rows r v, lastTotalRow rows = some r → toNumeric r.2 = some v →
      extract_actual_total_from_file rows = (v, false)) ∧
    (∀ rows r, lastTotalRow rows = some r → toNumeric r.2 = none →
      extract_actual_total_from_file rows = extractNanRow rows) ∧
    (∀ rows, lastTotalRow rows = none →
      extract_actual_total_from_file rows = extractNanRow rows) ∧
    (∀ rows r v, lastNanRow rows = some r → toNumeric r.2 = some v →
      extractNanRow rows = (v, false)) ∧
    (∀ rows r, lastNanRow rows = some r → toNumeric r.2 = none →
      extractNanRow rows = extractFallbackSum rows) ∧
    (∀ rows, lastNanRow rows = none → extractNanRow rows = extractFallbackSum rows) ∧
    (∀ rows, extractFallbackSum rows = (sumSecondCol rows, true)) := by
  refine ⟨?_, ?_, ?_, ?_, ?_, ?_, ?_⟩
  · intro rows r v h1 h2
    simp [extract_actual_total_from_file, h1, h2]
  · intro rows r h1 h2
    simp [extract_actual_total_from_file, h1, h2]
  · intro rows h1
    simp [extract_actual_total_from_file, h1]
  · intro rows r v h1 h2
    simp [extractNanRow, h1, h2]
  · intro rows r h1 h2
    simp [extractNanRow, h1, h2]
  · intro rows h1
    simp [extractNanRow, h1]
  · intro rows
    rfl

/-- Witness for C3: a table holding both a labelled Total row (value 50) and
a blank-labelled trailing row (value 60): the Total row wins. -/
theorem C3_actual_extractor_priority_witness :
    extract_actual_total_from_file
      [(Val.vstr "p1", Val.vnum 3), (Val.vstr " Total ", Val.vnum 50),
       (Val.vnan, Val.vnum 60)] = (50, false) :=
  C3_actual_extractor_priority.1
    [(Val.vstr "p1", Val.vnum 3), (Val.vstr " Total ", Val.vnum 50),
     (Val.vnan, Val.vnum 60)]
    (Val.vstr " Total ", Val.vnum 50) 50 (by decide) (by decide)

/-- C10: when (and only when) the project-name literal is absent from the
headers but present in the first data row, detect_project_col hands back a
mutated table whose header is the old first row with that row removed; in
every other successful case the table is returned unchanged. -/
theorem C10_project_col_mutation (df : DF) (c : Val) (df2 : DF)
    (h : detect_project_col df = some (c, df2)) :
    (df.cols.find? isProjHeader = none ∧ firstRowHasLiteral df = true →
      ∃ r0 rest, df.rows = r0 :: rest ∧ df2 = ⟨r0, rest⟩) ∧
    (¬(df.cols.find? isProjHeader = none ∧ firstRowHasLiteral df = true) →
      df2 = df) := by
  unfold detect_project_col at h
  split at h
  · next c0 hf =>
    simp only [Option.some.injEq, Prod.mk.injEq] at h
    exact ⟨fun hc => absurd hc.1 (by simp [hf]), fun _ => h.2.symm⟩
  · next hf =>
    split at h
    · exact absurd h (by simp)
    · next r0 rest hrows =>
      split at h
      · next hlit =>
        have hres : df2 = ⟨r0, rest⟩ := by
          split at h
          · next c1 hf2 =>
            simp only [Option.some.injEq, Prod.mk.injEq] at h
            exact h.2.symm
          · next hf2 =>
            split at h
            · next a l hr0 =>
              simp only [Option.some.injEq, Prod.mk.injEq] at h
              exact h.2.symm
            · exact absurd h (by simp)
        refine ⟨fun _ => ⟨r0, rest, hrows, hres⟩, fun hc => ?_⟩
        have hfl : firstRowHasLiteral df = true := by
          unfold firstRowHasLiteral
          rw [hrows]
          exact hlit
        exact absurd ⟨hf, hfl⟩ hc
      · next hlit =>
        have hres : df2 = df := by
          split at h
          · next a l hcols =>
            simp only [Option.some.injEq, Prod.mk.injEq] at h
            exact h.2.symm
          · exact absurd h (by simp)
        refine ⟨fun hc => ?_, fun _ => hres⟩
        have hlit2 : firstRowHasLiteral df = true := hc.2
        unfold firstRowHasLiteral at hlit2
        rw [hrows] at hlit2
        exact absurd hlit2 hlit

/-- Witness for C10: the literal sits in the first data row, so the caller
sees the promoted, shrunken table. -/
theorem C10_project_col_mutation_witness :
    ∃ r0 rest,
      (DF.mk [Val.vstr "A", Val.vstr "B"]
        [[Val.vstr " Project Full Name ", Val.vstr "2024-01-01"],
         [Val.vstr "p1", Val.vnum 3]]).rows = r0 :: rest ∧
      (DF.mk [Val.vstr " Project Full Name ", Val.vstr "2024-01-01"]
        [[Val.vstr "p1", Val.vnum 3]]) = ⟨r0, rest⟩ :=
  (C10_project_col_mutation
    ⟨[Val.vstr "A", Val.vstr "B"],
      [[Val.vstr " Project Full Name ", Val.vstr "2024-01-01"],
       [Val.vstr "p1", Val.vnum 3]]⟩
    (Val.vstr " Project Full Name ")
    ⟨[Val.vstr " Project Full Name ", Val.vstr "2024-01-01"],
      [[Val.vstr "p1", Val.vnum 3]]⟩
    (by decide)).1 (by decide)

/-- C8: when the uploaded file name holds no YYYY-MM-DD token the run halts
before any tracker mutation: the persisted tracker is returned exactly as it
was and no result is produced. -/
theorem C8_missing_date_token_no_mutation (baseline : DF)
    (tracker0 : List (Date × Int)) (fname : List Char)
    (actualRows : List (Val × Val)) (h : findDateToken fname = none) :
    process baseline tracker0 fname actualRows = (tracker0, none) := by
  unfold process
  cases h1 : detect_project_col baseline with
  | none => rfl
  | some pcdf =>
    obtain ⟨pc, df2⟩ := pcdf
    cases h2 : detect_week_cols df2.cols with
    | none => simp [h2]
    | some wcols =>
      cases wcols with
      | nil => simp [h2]
      | cons a l => simp [h2, h]

/-- Witness for C8: a file name with no date token leaves a concrete
nonempty tracker untouched. -/
theorem C8_missing_date_token_no_mutation_witness :
    process
      ⟨[Val.vstr "Project Full Name", Val.vstr "2024-01-01"],
        [[Val.vstr "Total", Val.vnum 100]]⟩
      [(⟨2024, 1, 1⟩, 95)]
      ("Actuals.xlsx".toList)
      [(Val.vstr "Total", Val.vnum 95)] =
      ([(⟨2024, 1, 1⟩, 95)], none) :=
  C8_missing_date_token_no_mutation
    ⟨[Val.vstr "Project Full Name", Val.vstr "2024-01-01"],
      [[Val.vstr "Total", Val.vnum 100]]⟩
    [(⟨2024, 1, 1⟩, 95)]
    ("Actuals.xlsx".toList)
    [(Val.vstr "Total", Val.vnum 95)]
    (by decide)

/-- Strict chronological order on tracker entries. -/
def trackerLT (a b : Date × Int) : Prop := a.1.key < b.1.key

instance : IsAntisymm (Date × Int) trackerLT :=
  ⟨fun _ _ h1 h2 => absurd h1 (Nat.lt_asymm h2)⟩

/-- Unfolding equation of the dedup pass on a cons cell. -/
theorem dedupKeepLast_cons (x : Date × Int) (xs : List (Date × Int)) :
    dedupKeepLast (x :: xs) =
      if xs.any (fun y => decide (y.1.key = x.1.key)) then dedupKeepLast xs
      else x :: dedupKeepLast xs := rfl

/-- Every survivor of the dedup pass came from the input list. -/
theorem mem_dedupKeepLast {l : List (Date × Int)} {a : Date × Int}
    (h : a ∈ dedupKeepLast l) : a ∈ l := by
  induction l with
  | nil => simp [dedupKeepLast] at h
  | cons x xs ih =>
    simp only [dedupKeepLast] at h
    by_cases hx : xs.any (fun y => decide (y.1.key = x.1.key)) = true
    · rw [if_pos hx] at h
      exact List.mem_cons_of_mem _ (ih h)
    · rw [if_neg hx] at h
      rcases List.mem_cons.mp h with h | h
      · exact h ▸ List.mem_cons_self _ _
      · exact List.mem_cons_of_mem _ (ih h)

/-- After dropping duplicates keeping the last, all surviving weeks are
pairwise distinct. -/
theorem pairwise_ne_dedupKeepLast (l : List (Date × Int)) :
    (dedupKeepLast l).Pairwise (fun p q => p.1.key ≠ q.1.key) := by
  induction l with
  | nil => simp [dedupKeepLast]
  | cons x xs ih =>
    simp only [dedupKeepLast]
    by_cases hx : xs.any (fun y => decide (y.1.key = x.1.key)) = true
    · rw [if_pos hx]
      exact ih
    · rw [if_neg hx]
      refine List.Pairwise.cons (fun q hq hkey => ?_) ih
      apply hx
      rw [List.any_eq_true]
      exact ⟨q, mem_dedupKeepLast hq, by simpa using hkey.symm⟩

/-- In the deduplicated append, the unique entry for the appended week is
the appended pair itself (last write wins). -/
theorem filter_key_dedup_append (w : Date) (v : Int) (t : List (Date × Int)) :
    (dedupKeepLast (t ++ [(w, v)])).filter (fun p => decide (p.1.key = w.key)) =
      [(w, v)] := by
  induction t with
  | nil => simp [dedupKeepLast]
  | cons x xs ih =>
    rw [List.cons_append, dedupKeepLast_cons]
    by_cases hx : (xs ++ [(w, v)]).any (fun y => decide (y.1.key = x.1.key)) = true
    · rw [if_pos hx]
      exact ih
    · rw [if_neg hx]
      have hxw : ¬x.1.key = w.key := by
        intro he
        apply hx
        rw [List.any_eq_true]
        exact ⟨(w, v), by simp, by simp [he]⟩
      rw [List.filter_cons_of_neg (by simpa using hxw)]
      exact ih

/-- Appending one entry to a list with pairwise-distinct weeks and
deduplicating removes exactly the old entry for that week. -/
theorem dedup_append_of_pairwise {u : List (Date × Int)} (x : Date × Int)
    (hu : u.Pairwise (fun p q => p.1.key ≠ q.1.key)) :
    dedupKeepLast (u ++ [x]) =
      u.filter (fun p => !decide (p.1.key = x.1.key)) ++ [x] := by
  induction u with
  | nil => simp [dedupKeepLast]
  | cons y u ih =>
    have hy : ∀ q ∈ u, y.1.key ≠ q.1.key := (List.pairwise_cons.mp hu).1
    have hu2 := (List.pairwise_cons.mp hu).2
    rw [List.cons_append, dedupKeepLast_cons]
    by_cases hyx : y.1.key = x.1.key
    · have hany : (u ++ [x]).any (fun z => decide (z.1.key = y.1.key)) = true := by
        rw [List.any_eq_true]
        exact ⟨x, by simp, by simp [hyx]⟩
      rw [if_pos hany, ih hu2, List.filter_cons_of_neg (by simp [hyx])]
    · have hany : ¬(u ++ [x]).any (fun z => decide (z.1.key = y.1.key)) = true := by
        rw [List.any_eq_true]
        rintro ⟨z, hz, hzk⟩
        have hzk2 : z.1.key = y.1.key := by simpa using hzk
        rcases List.mem_append.mp hz with hz | hz
        · exact hy z hz hzk2.symm
        · have hzx : z = x := by simpa using hz
          exact hyx (hzx ▸ hzk2).symm
      rw [if_neg hany, ih hu2, List.filter_cons_of_pos (by simpa using hyx)]
      rfl

/-- Combine two pairwise facts into one. -/
theorem pairwise_and {α : Type} {R S : α → α → Prop} {l : List α} :
    l.Pairwise R → l.Pairwise S → l.Pairwise (fun a b => R a b ∧ S a b) := by
  induction l with
  | nil => intro _ _; exact List.Pairwise.nil
  | cons a l ih =>
    intro hR hS
    rcases List.pairwise_cons.mp hR with ⟨hR1, hR2⟩
    rcases List.pairwise_cons.mp hS with ⟨hS1, hS2⟩
    exact List.Pairwise.cons (fun b hb => ⟨hR1 b hb, hS1 b hb⟩) (ih hR2 hS2)

/-- Two permuted, week-sorted tracker lists with pairwise-distinct weeks are
equal. -/
theorem tracker_sorted_unique {l1 l2 : List (Date × Int)} (hp : List.Perm l1 l2)
    (hs1 : l1.Sorted trackerLE) (hs2 : l2.Sorted trackerLE)
    (hn1 : l1.Pairwise (fun p q => p.1.key ≠ q.1.key)) : l1 = l2 := by
  have hn2 : l2.Pairwise (fun p q => p.1.key ≠ q.1.key) :=
    (hp.pairwise_iff (fun h => h.symm)).mp hn1
  have h1 : l1.Sorted trackerLT :=
    (pairwise_and hs1 hn1).imp (fun h => Nat.lt_of_le_of_ne h.1 h.2)
  have h2 : l2.Sorted trackerLT :=
    (pairwise_and hs2 hn2).imp (fun h => Nat.lt_of_le_of_ne h.1 h.2)
  exact List.eq_of_perm_of_sorted hp h1 h2

/-- C1: the tracker upsert is last-write-wins and idempotent: afterwards the
stored list holds exactly one entry for the upserted week, carrying the new
value; repeating the identical upsert is a no-op; and the stored entries are
sorted ascending by week. -/
theorem C1_upsert_lastWriteWins (t : List (Date × Int)) (w : Date) (v : Int) :
    (upsert t w v).filter (fun p => decide (p.1.key = w.key)) = [(w, v)] ∧
    upsert (upsert t w v) w v = upsert t w v ∧
    (upsert t w v).Sorted trackerLE := by
  have hperm : List.Perm (List.insertionSort trackerLE (dedupKeepLast (t ++ [(w, v)])))
      (dedupKeepLast (t ++ [(w, v)])) := List.perm_insertionSort _ _
  have hfilter : (upsert t w v).filter (fun p => decide (p.1.key = w.key)) = [(w, v)] := by
    have hpf := hperm.filter (fun p => decide (p.1.key = w.key))
    rw [filter_key_dedup_append] at hpf
    exact List.perm_singleton.mp hpf
  have hsorted : (upsert t w v).Sorted trackerLE := List.sorted_insertionSort _ _
  refine ⟨hfilter, ?_, hsorted⟩
  have hne_u : (upsert t w v).Pairwise (fun p q => p.1.key ≠ q.1.key) :=
    (hperm.pairwise_iff (fun h => h.symm)).mpr (pairwise_ne_dedupKeepLast _)
  have hE : dedupKeepLast (upsert t w v ++ [(w, v)]) =
      (upsert t w v).filter (fun p => !decide (p.1.key = w.key)) ++ [(w, v)] :=
    dedup_append_of_pairwise (w, v) hne_u
  have hF : List.Perm
      ((upsert t w v).filter (fun p => !decide (p.1.key = w.key)) ++ [(w, v)])
      (upsert t w v) := by
    have hsplit := List.filter_append_perm (fun p => decide (p.1.key = w.key)) (upsert t w v)
    rw [hfilter] at hsplit
    exact (List.perm_append_comm).trans hsplit
  have hperm2 : List.Perm (upsert (upsert t w v) w v) (upsert t w v) := by
    have hdef : upsert (upsert t w v) w v =
        List.insertionSort trackerLE (dedupKeepLast (upsert t w v ++ [(w, v)])) := rfl
    rw [hdef, hE]
    exact (List.perm_insertionSort _ _).trans hF
  have hne2 : (upsert (upsert t w v) w v).Pairwise (fun p q => p.1.key ≠ q.1.key) :=
    ((List.perm_insertionSort _ _).pairwise_iff (fun h => h.symm)).mpr
      (pairwise_ne_dedupKeepLast _)
  exact tracker_sorted_unique hperm2 (List.sorted_insertionSort _ _) hsorted hne2

/-- The actual value the tracker holds for a week, if any. -/
def lookupWeek (tr : List (Date × Int)) (w : Date) : Option Int :=
  (tr.find? (fun q => decide (q.1.key = w.key))).map (fun q => q.2)

/-- With pairwise-distinct weeks, filtering the tracker by a week yields at
most the first (unique) match. -/
theorem filter_key_eq_find_toList (w : Date) {tr : List (Date × Int)}
    (htr : tr.Pairwise (fun p q => p.1.key ≠ q.1.key)) :
    tr.filter (fun q => decide (q.1.key = w.key)) =
      (tr.find? (fun q => decide (q.1.key = w.key))).toList := by
  induction tr with
  | nil => rfl
  | cons q tr ih =>
    have hq : ∀ z ∈ tr, q.1.key ≠ z.1.key := (List.pairwise_cons.mp htr).1
    have htr2 := (List.pairwise_cons.mp htr).2
    by_cases hqw : q.1.key = w.key
    · rw [List.filter_cons_of_pos (by simpa using hqw),
        List.find?_cons_of_pos _ (by simpa using hqw)]
      have hnil : tr.filter (fun z => decide (z.1.key = w.key)) = [] := by
        rw [List.filter_eq_nil_iff]
        intro z hz
        simp only [decide_eq_true_eq]
        intro hzw
        exact hq z hz (by rw [hqw, hzw])
      rw [hnil]
      rfl
    · rw [List.filter_cons_of_neg (by simpa using hqw),
        List.find?_cons_of_neg _ (by simpa using hqw)]
      exact ih htr2

/-- C6: the combined series is the left join on week driven by the estimate
weeks.  Given a tracker with (invariantly) unique weeks, every estimate row
produces exactly one combined row, in order, carrying the estimate value
and the tracker's actual for that week (zero when the week is untracked);
combined weeks are exactly the estimate weeks, so tracker-only weeks do not
appear; and when every estimate value is present the emitted value is
exactly the series' value. -/
theorem C6_left_join (est : List (Date × Option Int)) (tr : List (Date × Int))
    (htr : tr.Pairwise (fun p q => p.1.key ≠ q.1.key))
    (hest : ∀ p ∈ est, (p.2).isSome = true) :
    leftMergeFill est tr =
      est.map (fun p => (p.1, ((p.2).getD 0, (lookupWeek tr p.1).getD 0))) ∧
    (leftMergeFill est tr).map (fun r => r.1) = est.map (fun p => p.1) ∧
    (∀ p ∈ est, some ((p.2).getD 0) = p.2) := by
  have hmain : leftMergeFill est tr =
      est.map (fun p => (p.1, ((p.2).getD 0, (lookupWeek tr p.1).getD 0))) := by
    clear hest
    induction est with
    | nil => rfl
    | cons p est ih =>
      have hstep : leftMergeFill (p :: est) tr =
          (match tr.filter (fun q => decide (q.1.key = p.1.key)) with
            | [] => [(p.1, ((p.2).getD 0, 0))]
            | ms => ms.map (fun q => (p.1, ((p.2).getD 0, q.2)))) ++
            leftMergeFill est tr := rfl
      rw [hstep, ih, List.map_cons]
      rw [filter_key_eq_find_toList p.1 htr]
      cases hfind : tr.find? (fun q => decide (q.1.key = p.1.key)) with
      | none => simp [lookupWeek, hfind]
      | some q => simp [lookupWeek, hfind]
  refine ⟨hmain, ?_, ?_⟩
  · rw [hmain, List.map_map]
    rfl
  · intro p hp
    obtain ⟨v, hv⟩ := Option.isSome_iff_exists.mp (hest p hp)
    rw [hv]
    rfl

/-- Witness for C6, the spec's end-to-end scenario: estimates 100 and 120
for two weeks, tracker holding 95 for the first week; the combined series
pairs week one with (100, 95) and week two with (120, 0). -/
theorem C6_left_join_witness :
    leftMergeFill [(⟨2024, 1, 1⟩, some 100), (⟨2024, 1, 8⟩, some 120)]
      [(⟨2024, 1, 1⟩, 95)] =
      [(⟨2024, 1, 1⟩, (100, 95)), (⟨2024, 1, 8⟩, (120, 0))] :=
  ((C6_left_join [(⟨2024, 1, 1⟩, some 100), (⟨2024, 1, 8⟩, some 120)]
    [(⟨2024, 1, 1⟩, 95)] (by simp) (by decide)).1).trans (by decide)

/-- Reading back the digit character gives the digit. -/
theorem digitVal_digitChar10 {d : Nat} (h : d < 10) :
    digitVal (digitChar10 d) = d := by
  interval_cases d <;> decide

/-- Digit characters are digits. -/
theorem isDigit_digitChar10 {d : Nat} (h : d < 10) :
    (digitChar10 d).isDigit = true := by
  interval_cases d <;> decide

/-- The fuel-driven digit printer agrees with the mathematical digit
expansion once the fuel suffices. -/
theorem natCharsAux_eq {fuel n : Nat} (h : n ≤ fuel) :
    natCharsAux fuel n = ((Nat.digits 10 n).map digitChar10).reverse := by
  induction fuel generalizing n with
  | zero =>
    have hn : n = 0 := Nat.le_zero.mp h
    subst hn
    simp [natCharsAux]
  | succ f ih =>
    cases n with
    | zero => simp [natCharsAux]
    | succ m =>
      rw [natCharsAux]
      have hdiv : (m + 1) / 10 ≤ f := by
        have h1 : (m + 1) / 10 < m + 1 := Nat.div_lt_self (Nat.succ_pos m) (by norm_num)
        omega
      rw [ih hdiv]
      rw [Nat.digits_def' (by norm_num : (1 : Nat) < 10) (Nat.succ_pos m)]
      simp

/-- The printed number consists of digit characters only. -/
theorem natChars_all_digit (n : Nat) : (natChars n).all Char.isDigit = true := by
  rw [natChars]
  split_ifs with h
  · decide
  · rw [natCharsAux_eq (Nat.le_refl n), List.all_eq_true]
    intro c hc
    rw [List.mem_reverse] at hc
    obtain ⟨d, hd, rfl⟩ := List.mem_map.mp hc
    exact isDigit_digitChar10 (Nat.digits_lt_base (by norm_num) hd)

/-- The printed number is never empty. -/
theorem natChars_ne_nil (n : Nat) : natChars n ≠ [] := by
  rw [natChars]
  split_ifs with h
  · simp
  · rw [natCharsAux_eq (Nat.le_refl n)]
    simp [Nat.digits_ne_nil_iff_ne_zero, h]

/-- Folding the decimal accumulator over a printed digit list recovers the
number, shifted under any digits already accumulated. -/
theorem foldl_digits (a : Nat) (ds : List Nat) (h : ∀ d ∈ ds, d < 10) :
    ((ds.map digitChar10).reverse).foldl (fun a c => a * 10 + digitVal c) a =
      a * 10 ^ ds.length + Nat.ofDigits 10 ds := by
  induction ds generalizing a with
  | nil => simp
  | cons d ds ih =>
    rw [List.map_cons, List.reverse_cons, List.foldl_append]
    rw [ih a (fun x hx => h x (List.mem_cons_of_mem _ hx))]
    simp only [List.foldl_cons, List.foldl_nil]
    rw [digitVal_digitChar10 (h d (List.mem_cons_self _ _))]
    rw [Nat.ofDigits_cons, List.length_cons, pow_succ]
    ring

/-- Folding the accumulator over the printed number recovers it. -/
theorem natChars_foldl (n : Nat) :
    (natChars n).foldl (fun a c => a * 10 + digitVal c) 0 = n := by
  rw [natChars]
  split_ifs with h
  · subst h
    decide
  · rw [natCharsAux_eq (Nat.le_refl n)]
    rw [foldl_digits 0 _ (fun d hd => Nat.digits_lt_base (by norm_num) hd)]
    simp [Nat.ofDigits_digits]

/-- Parsing the bare printed number succeeds. -/
theorem parseNat_natChars (n : Nat) : parseNat? (natChars n) = some n := by
  have hne := natChars_ne_nil n
  have hempty : (natChars n).isEmpty = false := by
    cases h : natChars n with
    | nil => exact absurd h hne
    | cons a l => rfl
  simp [parseNat?, hempty, natChars_all_digit n, natChars_foldl n]

/-- Every character of the zero-padded number is a digit. -/
theorem fmtNat_all_digit (k n : Nat) : (fmtNat k n).all Char.isDigit = true := by
  rw [fmtNat, padChars, List.all_append, Bool.and_eq_true]
  refine ⟨?_, natChars_all_digit n⟩
  rw [List.all_eq_true]
  intro c hc
  rw [List.eq_of_mem_replicate hc]
  decide

/-- Leading zeros accumulate to zero. -/
theorem foldl_zeros (j : Nat) :
    (List.replicate j '0').foldl (fun a c => a * 10 + digitVal c) 0 = 0 := by
  induction j with
  | zero => rfl
  | succ m ih =>
    rw [List.replicate_succ, List.foldl_cons]
    have h0 : 0 * 10 + digitVal '0' = 0 := by decide
    rw [h0]
    exact ih

/-- Parsing the zero-padded printed number recovers it. -/
theorem parseNat_fmtNat (k n : Nat) : parseNat? (fmtNat k n) = some n := by
  have hne := natChars_ne_nil n
  have hempty : (fmtNat k n).isEmpty = false := by
    rw [fmtNat, padChars]
    cases hcase : List.replicate (k - (natChars n).length) '0' ++ natChars n with
    | nil => exact absurd (List.append_eq_nil.mp hcase).2 hne
    | cons a l => rfl
  have hdig := fmtNat_all_digit k n
  have hfold : (fmtNat k n).foldl (fun a c => a * 10 + digitVal c) 0 = n := by
    rw [fmtNat, padChars, List.foldl_append, foldl_zeros, natChars_foldl]
  simp [parseNat?, hempty, hdig, hfold]

/-- Splitting a separator-free chunk leaves it whole. -/
theorem splitOnChar_not_mem {c : Char} {a : List Char} (h : c ∉ a) :
    splitOnChar c a = [a] := by
  induction a with
  | nil => rfl
  | cons x xs ih =>
    rw [splitOnChar]
    rw [if_neg (fun hx => h (by rw [← hx]; exact List.mem_cons_self _ _))]
    rw [ih (fun hx => h (List.mem_cons_of_mem _ hx))]

/-- Splitting peels one separator-free chunk before the separator. -/
theorem splitOnChar_append {c : Char} {a : List Char} (b : List Char) (h : c ∉ a) :
    splitOnChar c (a ++ c :: b) = a :: splitOnChar c b := by
  induction a with
  | nil =>
    show splitOnChar c (c :: b) = [] :: splitOnChar c b
    rw [splitOnChar, if_pos rfl]
  | cons x xs ih =>
    rw [List.cons_append, splitOnChar]
    rw [if_neg (fun hx => h (by rw [← hx]; exact List.mem_cons_self _ _))]
    rw [ih (fun hx => h (List.mem_cons_of_mem _ hx))]

/-- Parsing the printed integer recovers it. -/
theorem parseInt_intChars (n : Int) : parseInt? (intChars n) = some n := by
  rcases lt_or_ge n 0 with hneg | hpos
  · rw [intChars, if_pos hneg, parseInt?]
    rw [if_pos rfl, parseNat_natChars]
    show some (-(n.natAbs : Int)) = some n
    exact congrArg some (by omega)
  · rw [intChars, if_neg (not_lt.mpr hpos)]
    have hne := natChars_ne_nil n.toNat
    cases hcr : natChars n.toNat with
    | nil => exact absurd hcr hne
    | cons c rest =>
      have hcdig : c.isDigit = true := by
        have hall := natChars_all_digit n.toNat
        rw [hcr, List.all_cons, Bool.and_eq_true] at hall
        exact hall.1
      have hcne : ¬c = '-' := by
        intro hc
        rw [hc] at hcdig
        exact absurd hcdig (by decide)
      rw [parseInt?]
      rw [if_neg hcne, ← hcr, parseNat_natChars]
      show some ((n.toNat : Int)) = some n
      exact congrArg some (by omega)

/-- Characters of a printed date are digits or dashes. -/
theorem mem_dateChars {c : Char} {d : Date} (h : c ∈ dateChars d) :
    c = '-' ∨ c.isDigit = true := by
  have hdig : ∀ k n : Nat, c ∈ fmtNat k n → c.isDigit = true := fun k n hc =>
    List.all_eq_true.mp (fmtNat_all_digit k n) c hc
  rw [dateChars] at h
  rcases List.mem_append.mp h with h | h
  · exact Or.inr (hdig _ _ h)
  · rcases List.mem_cons.mp h with h | h
    · exact Or.inl h
    · rcases List.mem_append.mp h with h | h
      · exact Or.inr (hdig _ _ h)
      · rcases List.mem_cons.mp h with h | h
        · exact Or.inl h
        · exact Or.inr (hdig _ _ h)

/-- Characters of a printed integer are digits or a leading minus. -/
theorem mem_intChars {c : Char} {n : Int} (h : c ∈ intChars n) :
    c = '-' ∨ c.isDigit = true := by
  rw [intChars] at h
  split_ifs at h
  · rcases List.mem_cons.mp h with h | h
    · exact Or.inl h
    · exact Or.inr (List.all_eq_true.mp (natChars_all_digit _) c h)
  · exact Or.inr (List.all_eq_true.mp (natChars_all_digit _) c h)

/-- Parsing the printed date recovers it, for any date the program can
produce (a valid calendar day). -/
theorem parseDateChars_dateChars {d : Date} (h : validDate d = true) :
    parseDateChars (dateChars d) = some d := by
  have hd4 : ('-' : Char) ∉ fmtNat 4 d.year := fun hc =>
    absurd (List.all_eq_true.mp (fmtNat_all_digit 4 d.year) _ hc) (by decide)
  have hd2m : ('-' : Char) ∉ fmtNat 2 d.month := fun hc =>
    absurd (List.all_eq_true.mp (fmtNat_all_digit 2 d.month) _ hc) (by decide)
  have hd2d : ('-' : Char) ∉ fmtNat 2 d.day := fun hc =>
    absurd (List.all_eq_true.mp (fmtNat_all_digit 2 d.day) _ hc) (by decide)
  have hsplit : splitOnChar '-' (dateChars d) =
      [fmtNat 4 d.year, fmtNat 2 d.month, fmtNat 2 d.day] := by
    rw [dateChars, splitOnChar_append _ hd4, splitOnChar_append _ hd2m,
      splitOnChar_not_mem hd2d]
  rw [parseDateChars, hsplit]
  simp [parseNat_fmtNat, h]

/-- Parsing one persisted CSV line recovers the tracker entry. -/
theorem parseEntry_serializeEntry {p : Date × Int} (h : validDate p.1 = true) :
    parseEntry (serializeEntry p) = some p := by
  have hcd : (',' : Char) ∉ dateChars p.1 := by
    intro hc
    rcases mem_dateChars hc with hc | hc
    · exact absurd hc (by decide)
    · exact absurd hc (by decide)
  have hci : (',' : Char) ∉ intChars p.2 := by
    intro hc
    rcases mem_intChars hc with hc | hc
    · exact absurd hc (by decide)
    · exact absurd hc (by decide)
  have hsplit : splitOnChar ',' (serializeEntry p) = [dateChars p.1, intChars p.2] := by
    rw [serializeEntry, splitOnChar_append _ hcd, splitOnChar_not_mem hci]
  rw [parseEntry, hsplit]
  simp [parseDateChars_dateChars h, parseInt_intChars]

/-- Reading back all persisted lines recovers the entries. -/
theorem mapO_parseEntry (t : List (Date × Int))
    (h : ∀ p ∈ t, validDate p.1 = true) :
    mapO parseEntry (t.map serializeEntry) = some t := by
  induction t with
  | nil => rfl
  | cons p t ih =>
    rw [List.map_cons, mapO]
    rw [parseEntry_serializeEntry (h p (List.mem_cons_self _ _))]
    rw [ih (fun q hq => h q (List.mem_cons_of_mem _ hq))]

/-- C7: persisting the tracker and reloading it reproduces exactly the same
list of (week, value) pairs, and in particular preserves the
sorted-ascending-by-week shape the upsert maintains, for every tracker
whose weeks are representable calendar dates. -/
theorem C7_tracker_roundtrip (t : List (Date × Int))
    (h : ∀ p ∈ t, validDate p.1 = true) :
    loadTracker (persistTracker t) = some t ∧
    (t.Sorted trackerLE →
      ∃ l, loadTracker (persistTracker t) = some l ∧ l.Sorted trackerLE) := by
  have hload : loadTracker (persistTracker t) = some t := by
    rw [persistTracker, loadTracker]
    rw [if_pos rfl]
    exact mapO_parseEntry t h
  exact ⟨hload, fun hs => ⟨t, hload, hs⟩⟩

/-- Witness for C7 on a concrete two-entry sorted tracker. -/
theorem C7_tracker_roundtrip_witness :
    loadTracker (persistTracker [(⟨2024, 1, 1⟩, 95), (⟨2024, 1, 8⟩, 120)]) =
      some [(⟨2024, 1, 1⟩, 95), (⟨2024, 1, 8⟩, 120)] :=
  (C7_tracker_roundtrip [(⟨2024, 1, 1⟩, 95), (⟨2024, 1, 8⟩, 120)] (by decide)).1

/-- A pandas-equal header has the same parsed sort key as the Timestamp. -/
theorem pandasEqDate_key {x : Val} {d : Date} (h : pandasEqDate x d = true) :
    sortKeyD x = sortKeyD (Val.vdate d) := by
  cases x with
  | vstr s =>
    rw [pandasEqDate] at h
    cases hp : parseDateStr s with
    | none =>
      rw [hp] at h
      exact absurd h (by simp)
    | some d2 =>
      rw [hp] at h
      have hd2 : d2 = d := by simpa using h
      simp [sortKeyD, parseColDate, hp, hd2]
  | vnum n => simp [pandasEqDate] at h
  | vdate d2 =>
    have hd2 : d2 = d := by simpa [pandasEqDate] using h
    rw [hd2]
  | vnan => simp [pandasEqDate] at h

/-- A pattern-matching header is a string header. -/
theorem isPatternCol_vstr {c : Val} (h : isPatternCol c = true) :
    ∃ s, c = Val.vstr s := by
  cases c with
  | vstr s => exact ⟨s, rfl⟩
  | vnum n => simp [isPatternCol] at h
  | vdate d => simp [isPatternCol] at h
  | vnan => simp [isPatternCol] at h

/-- A timestamp-typed header is a date header. -/
theorem isTsCol_vdate {c : Val} (h : isTsCol c = true) : ∃ d, c = Val.vdate d := by
  cases c with
  | vstr s => simp [isTsCol] at h
  | vnum n => simp [isTsCol] at h
  | vdate d => exact ⟨d, rfl⟩
  | vnan => simp [isTsCol] at h

/-- String headers are never timestamp-typed. -/
theorem isTsCol_false_of_pattern {c : Val} (h : isPatternCol c = true) :
    isTsCol c = false := by
  obtain ⟨s, rfl⟩ := isPatternCol_vstr h
  rfl

/-- A non-timestamp column passes the second collection loop unchanged. -/
theorem addTsCols_skip {c : Val} (h : isTsCol c = false) (cols acc : List Val) :
    addTsCols (c :: cols) acc = addTsCols cols acc := by
  cases c with
  | vstr s => rfl
  | vnum n => rfl
  | vdate d => simp [isTsCol] at h
  | vnan => rfl

/-- When no incoming Timestamp header pandas-equals a collected one and the
Timestamp headers have pairwise-distinct dates, the second loop appends all
Timestamp headers in order. -/
theorem addTsCols_no_collision : ∀ (cols acc : List Val),
    (∀ d, Val.vdate d ∈ cols → ∀ x ∈ acc, pandasEqDate x d = false) →
    ((cols.filter isTsCol).Pairwise fun a b => sortKeyD a ≠ sortKeyD b) →
    addTsCols cols acc = acc ++ cols.filter isTsCol := by
  intro cols
  induction cols with
  | nil =>
    intro acc _ _
    simp [addTsCols]
  | cons c cols ih =>
    intro acc h1 h2
    by_cases hts : isTsCol c = true
    · obtain ⟨d, rfl⟩ := isTsCol_vdate hts
      have hany : (acc.any fun x => pandasEqDate x d) = false := by
        cases hq : acc.any (fun x => pandasEqDate x d) with
        | false => rfl
        | true =>
          obtain ⟨x, hx, hpx⟩ := List.any_eq_true.mp hq
          rw [h1 d (List.mem_cons_self _ _) x hx] at hpx
          exact absurd hpx (by simp)
      have hstep : addTsCols (Val.vdate d :: cols) acc =
          addTsCols cols
            (if acc.any (fun x => pandasEqDate x d) then acc
             else acc ++ [Val.vdate d]) := rfl
      rw [hstep, hany, if_neg Bool.false_ne_true]
      have hfilter : (Val.vdate d :: cols).filter isTsCol =
          Val.vdate d :: cols.filter isTsCol := List.filter_cons_of_pos rfl
      rw [hfilter] at h2
      have hd := (List.pairwise_cons.mp h2).1
      have h2t := (List.pairwise_cons.mp h2).2
      have hrec := ih (acc ++ [Val.vdate d]) ?_ h2t
      · rw [hfilter, hrec, List.append_assoc]
        rfl
      · intro d2 hd2 x hx
        rcases List.mem_append.mp hx with hx | hx
        · exact h1 d2 (List.mem_cons_of_mem _ hd2) x hx
        · have hxd : x = Val.vdate d := by simpa using hx
          subst hxd
          have hne : sortKeyD (Val.vdate d) ≠ sortKeyD (Val.vdate d2) :=
            hd _ (List.mem_filter.mpr ⟨hd2, rfl⟩)
          have hdne : d ≠ d2 := fun he => hne (by rw [he])
          simp [pandasEqDate, hdne]
    · have hts' : isTsCol c = false := by
        cases h : isTsCol c with
        | true => exact absurd h hts
        | false => rfl
      rw [addTsCols_skip hts']
      have hfilter : (c :: cols).filter isTsCol = cols.filter isTsCol :=
        List.filter_cons_of_neg (by simp [hts'])
      rw [hfilter]
      rw [hfilter] at h2
      exact ih acc (fun d2 hd2 x hx => h1 d2 (List.mem_cons_of_mem _ hd2) x hx) h2

/-- The pattern-matching and Timestamp headers together are a permutation
of all qualifying headers. -/
theorem filter_qualifies_perm (cols : List Val) :
    List.Perm (cols.filter isPatternCol ++ cols.filter isTsCol)
      (cols.filter qualifiesWeekCol) := by
  induction cols with
  | nil => exact List.Perm.refl _
  | cons c cols ih =>
    by_cases hp : isPatternCol c = true
    · have hts : isTsCol c = false := isTsCol_false_of_pattern hp
      rw [List.filter_cons_of_pos hp, List.filter_cons_of_neg (by simp [hts]),
        List.filter_cons_of_pos (by simp [qualifiesWeekCol, hp]), List.cons_append]
      exact ih.cons c
    · have hp' : isPatternCol c = false := by
        cases h : isPatternCol c with
        | true => exact absurd h hp
        | false => rfl
      by_cases ht : isTsCol c = true
      · rw [List.filter_cons_of_neg (by simp [hp']), List.filter_cons_of_pos ht,
          List.filter_cons_of_pos (by simp [qualifiesWeekCol, ht])]
        exact List.Perm.trans List.perm_middle (ih.cons c)
      · have ht' : isTsCol c = false := by
          cases h : isTsCol c with
          | true => exact absurd h ht
          | false => rfl
        rw [List.filter_cons_of_neg (by simp [hp']),
          List.filter_cons_of_neg (by simp [ht']),
          List.filter_cons_of_neg (by simp [qualifiesWeekCol, hp', ht'])]
        exact ih

/-- A pointwise-defined optional map succeeds when every element succeeds. -/
theorem mapO_isSome_of_forall {α β : Type} {f : α → Option β} :
    ∀ {l : List α}, (∀ a ∈ l, (f a).isSome = true) → ∃ bs, mapO f l = some bs := by
  intro l
  induction l with
  | nil => intro _; exact ⟨[], rfl⟩
  | cons a l ih =>
    intro h
    obtain ⟨b, hb⟩ := Option.isSome_iff_exists.mp (h a (List.mem_cons_self _ _))
    obtain ⟨bs, hbs⟩ := ih (fun x hx => h x (List.mem_cons_of_mem _ hx))
    exact ⟨b :: bs, by rw [mapO, hb, hbs]⟩

/-- Members of the collected week-column list come from the pattern filter
or are Timestamp headers of the input. -/
theorem mem_addTsCols : ∀ (cols acc : List Val) (x : Val),
    x ∈ addTsCols cols acc → x ∈ acc ∨ (x ∈ cols ∧ isTsCol x = true) := by
  intro cols
  induction cols with
  | nil =>
    intro acc x hx
    exact Or.inl hx
  | cons c cols ih =>
    intro acc x hx
    by_cases hts : isTsCol c = true
    · obtain ⟨d, rfl⟩ := isTsCol_vdate hts
      have hstep : addTsCols (Val.vdate d :: cols) acc =
          addTsCols cols
            (if acc.any (fun y => pandasEqDate y d) then acc
             else acc ++ [Val.vdate d]) := rfl
      rw [hstep] at hx
      rcases ih _ x hx with hx2 | hx2
      · by_cases hany : (acc.any fun y => pandasEqDate y d) = true
        · rw [hany, if_pos rfl] at hx2
          exact Or.inl hx2
        · have hany' : (acc.any fun y => pandasEqDate y d) = false := by
            cases h : acc.any (fun y => pandasEqDate y d) with
            | true => exact absurd h hany
            | false => rfl
          rw [hany', if_neg Bool.false_ne_true] at hx2
          rcases List.mem_append.mp hx2 with hx3 | hx3
          · exact Or.inl hx3
          · have hxd : x = Val.vdate d := by simpa using hx3
            exact Or.inr ⟨hxd ▸ List.mem_cons_self _ _, hxd ▸ rfl⟩
      · exact Or.inr ⟨List.mem_cons_of_mem _ hx2.1, hx2.2⟩
    · have hts' : isTsCol c = false := by
        cases h : isTsCol c with
        | true => exact absurd h hts
        | false => rfl
      rw [addTsCols_skip hts'] at hx
      rcases ih acc x hx with hx2 | hx2
      · exact Or.inl hx2
      · exact Or.inr ⟨List.mem_cons_of_mem _ hx2.1, hx2.2⟩

/-- Pairwise-distinct keys give distinct keys for any two distinct members. -/
theorem pairwise_ne_forall : ∀ {l : List Val},
    (l.Pairwise fun a b => sortKeyD a ≠ sortKeyD b) →
    ∀ {a b : Val}, a ∈ l → b ∈ l → a ≠ b → sortKeyD a ≠ sortKeyD b := by
  intro l
  induction l with
  | nil =>
    intro _ a b ha
    exact absurd ha (List.not_mem_nil a)
  | cons x xs ih =>
    intro h a b ha hb hab
    rcases List.pairwise_cons.mp h with ⟨hx, hxs⟩
    rcases List.mem_cons.mp ha with ha | ha
    · rcases List.mem_cons.mp hb with hb | hb
      · exact absurd (ha.trans hb.symm) hab
      · exact ha ▸ hx b hb
    · rcases List.mem_cons.mp hb with hb | hb
      · exact fun he => hx a ha ((hb ▸ he).symm)
      · exact ih hxs ha hb hab

/-- C4 counterexample: the claim that detect_week_cols returns exactly the
qualifying columns sorted strictly ascending by parsed date is false.  On
the headers 2024-01-01, a whitespace-padded 2024-01-01 and a native
Timestamp of the same date, the Timestamp column qualifies but is dropped
by the membership guard of the second collection loop (pandas equality of a
Timestamp with the equal-date string), and the two retained headers share
one parsed date, so the output is not strictly ascending either. -/
theorem C4_week_cols_claim_counterexample :
    ¬ (∀ (cols : List Val) (l : List Val), detect_week_cols cols = some l →
        (∀ c, c ∈ l ↔ (qualifiesWeekCol c = true ∧ c ∈ cols)) ∧
        l.Pairwise (fun a b => sortKeyD a < sortKeyD b)) := by
  intro hclaim
  have h := hclaim
    [Val.vstr "2024-01-01", Val.vstr "2024-01-01 ", Val.vdate ⟨2024, 1, 1⟩]
    [Val.vstr "2024-01-01", Val.vstr "2024-01-01 "] (by decide)
  have hmem := (h.1 (Val.vdate ⟨2024, 1, 1⟩)).mpr ⟨by decide, by decide⟩
  exact absurd hmem (by decide)

/-- C4 amended: provided every qualifying header parses (valid calendar
date) and the qualifying headers' parsed dates are pairwise distinct,
detect_week_cols succeeds and returns exactly the qualifying columns (as a
permutation) sorted strictly ascending by parsed date. -/
theorem C4_week_cols_sorted_distinct (cols : List Val)
    (Hvalid : ∀ c ∈ cols, qualifiesWeekCol c = true → (parseColDate c).isSome = true)
    (Hdist : (cols.filter qualifiesWeekCol).Pairwise
      (fun a b => sortKeyD a ≠ sortKeyD b)) :
    ∃ l, detect_week_cols cols = some l ∧
      List.Perm l (cols.filter qualifiesWeekCol) ∧
      l.Pairwise (fun a b => sortKeyD a < sortKeyD b) := by
  have hts_sub : cols.filter isTsCol = (cols.filter qualifiesWeekCol).filter isTsCol := by
    rw [List.filter_filter]
    refine (List.filter_congr ?_).symm
    intro a _
    cases h : isTsCol a with
    | false => rfl
    | true => simp [qualifiesWeekCol, h]
  have hpat_sub : cols.filter isPatternCol =
      (cols.filter qualifiesWeekCol).filter isPatternCol := by
    rw [List.filter_filter]
    refine (List.filter_congr ?_).symm
    intro a _
    cases h : isPatternCol a with
    | false => rfl
    | true => simp [qualifiesWeekCol, h]
  have hts_pw : (cols.filter isTsCol).Pairwise (fun a b => sortKeyD a ≠ sortKeyD b) := by
    rw [hts_sub]
    exact List.Pairwise.sublist (List.filter_sublist _) Hdist
  have hpat_pw : (cols.filter isPatternCol).Pairwise
      (fun a b => sortKeyD a ≠ sortKeyD b) := by
    rw [hpat_sub]
    exact List.Pairwise.sublist (List.filter_sublist _) Hdist
  have hcollect : addTsCols cols (cols.filter isPatternCol) =
      cols.filter isPatternCol ++ cols.filter isTsCol := by
    refine addTsCols_no_collision cols _ ?_ hts_pw
    intro d hd x hx
    have hxq : x ∈ cols.filter qualifiesWeekCol := by
      have hm := List.mem_filter.mp hx
      exact List.mem_filter.mpr ⟨hm.1, by simp [qualifiesWeekCol, hm.2]⟩
    have hdq : Val.vdate d ∈ cols.filter qualifiesWeekCol :=
      List.mem_filter.mpr ⟨hd, by simp [qualifiesWeekCol, isTsCol]⟩
    have hxp : isPatternCol x = true := (List.mem_filter.mp hx).2
    obtain ⟨s, rfl⟩ := isPatternCol_vstr hxp
    have hne : sortKeyD (Val.vstr s) ≠ sortKeyD (Val.vdate d) :=
      pairwise_ne_forall Hdist hxq hdq (by simp)
    cases h : pandasEqDate (Val.vstr s) d with
    | false => rfl
    | true => exact absurd (pandasEqDate_key h) hne
  have hwcols_pw : (cols.filter isPatternCol ++ cols.filter isTsCol).Pairwise
      (fun a b => sortKeyD a ≠ sortKeyD b) := by
    rw [List.pairwise_append]
    refine ⟨hpat_pw, hts_pw, ?_⟩
    intro a ha b hb
    have haq : a ∈ cols.filter qualifiesWeekCol := by
      have hm := List.mem_filter.mp ha
      exact List.mem_filter.mpr ⟨hm.1, by simp [qualifiesWeekCol, hm.2]⟩
    have hbq : b ∈ cols.filter qualifiesWeekCol := by
      have hm := List.mem_filter.mp hb
      exact List.mem_filter.mpr ⟨hm.1, by simp [qualifiesWeekCol, hm.2]⟩
    obtain ⟨s, rfl⟩ := isPatternCol_vstr (List.mem_filter.mp ha).2
    obtain ⟨d, rfl⟩ := isTsCol_vdate (List.mem_filter.mp hb).2
    exact pairwise_ne_forall Hdist haq hbq (by simp)
  have hvalid_w : ∀ a ∈ addTsCols cols (cols.filter isPatternCol),
      (parseColDate a).isSome = true := by
    intro a ha
    rcases mem_addTsCols cols _ a ha with ha2 | ha2
    · have hm := List.mem_filter.mp ha2
      exact Hvalid a hm.1 (by simp [qualifiesWeekCol, hm.2])
    · obtain ⟨d, rfl⟩ := isTsCol_vdate ha2.2
      rfl
  obtain ⟨bs, hbs⟩ := mapO_isSome_of_forall hvalid_w
  have hdet : detect_week_cols cols =
      some (List.insertionSort valLE (addTsCols cols (cols.filter isPatternCol))) := by
    simp only [detect_week_cols]
    rw [hbs]
  refine ⟨List.insertionSort valLE (addTsCols cols (cols.filter isPatternCol)),
    hdet, ?_, ?_⟩
  · rw [hcollect]
    exact (List.perm_insertionSort _ _).trans (filter_qualifies_perm cols)
  · have hperm := List.perm_insertionSort valLE
      (addTsCols cols (cols.filter isPatternCol))
    have hne : (List.insertionSort valLE
        (addTsCols cols (cols.filter isPatternCol))).Pairwise
        (fun a b => sortKeyD a ≠ sortKeyD b) := by
      rw [hcollect] at hperm ⊢
      exact (hperm.pairwise_iff (fun h => Ne.symm h)).mpr hwcols_pw
    have hsorted : (List.insertionSort valLE
        (addTsCols cols (cols.filter isPatternCol))).Sorted valLE :=
      List.sorted_insertionSort _ _
    exact (pairwise_and hsorted hne).imp (fun h => Nat.lt_of_le_of_ne h.1 h.2)

/-- Witness for C4 amended, the spec's own reordering example: three
distinct date headers given out of order come back sorted ascending. -/
theorem C4_week_cols_sorted_distinct_witness :
    ∃ l, detect_week_cols
        [Val.vstr "2024-01-15", Val.vstr "2024-01-01", Val.vstr "2024-01-08"] =
        some l ∧
      List.Perm l
        ([Val.vstr "2024-01-15", Val.vstr "2024-01-01",
          Val.vstr "2024-01-08"].filter qualifiesWeekCol) ∧
      l.Pairwise (fun a b => sortKeyD a < sortKeyD b) :=
  C4_week_cols_sorted_distinct
    [Val.vstr "2024-01-15", Val.vstr "2024-01-01", Val.vstr "2024-01-08"]
    (by decide) (by decide)

/-- C9 counterexample: the Tabular Normalizer is not total.  On a table
with one column and no rows, project-column detection raises (df.iloc at 0
on an empty frame); and on a header matching the date pattern but naming an
invalid calendar day, week-column detection raises inside the sort key
(pd.to_datetime). -/
theorem C9_normalizer_total_counterexample :
    ¬ ((∀ df : DF, (detect_project_col df).isSome = true) ∧
       (∀ cols : List Val, (detect_week_cols cols).isSome = true)) := by
  rintro ⟨h1, h2⟩
  refine absurd (h1 ⟨[Val.vstr "A"], []⟩) ?_
  decide

/-- C9 amended: project-column detection never raises on a table with at
least one column and one row (and never raises when a header already
matches, whatever the shape); week-column detection never raises provided
every pattern-matching header is a valid calendar date (qualifying headers
parse), and returns an empty list when no column qualifies. -/
theorem C9_normalizer_total_amended :
    (∀ df : DF, df.cols ≠ [] → df.rows ≠ [] →
      (detect_project_col df).isSome = true) ∧
    (∀ df : DF, (df.cols.find? isProjHeader).isSome = true →
      (detect_project_col df).isSome = true) ∧
    (∀ cols : List Val,
      (∀ c ∈ cols, qualifiesWeekCol c = true → (parseColDate c).isSome = true) →
      (detect_week_cols cols).isSome = true) ∧
    (∀ cols : List Val, cols.filter qualifiesWeekCol = [] →
      detect_week_cols cols = some []) := by
  refine ⟨?_, ?_, ?_, ?_⟩
  · intro df hcols hrows
    unfold detect_project_col
    split
    · rfl
    · split
      · next heq => exact absurd heq hrows
      · next r0 rest heq =>
        split
        · next hlit =>
          split
          · rfl
          · split
            · rfl
            · simp at hlit
        · split
          · rfl
          · next heq2 => exact absurd heq2 hcols
  · intro df h
    unfold detect_project_col
    split
    · rfl
    · next hf =>
      rw [hf] at h
      simp at h
  · intro cols hvalid
    have hvalid_w : ∀ a ∈ addTsCols cols (cols.filter isPatternCol),
        (parseColDate a).isSome = true := by
      intro a ha
      rcases mem_addTsCols cols _ a ha with ha2 | ha2
      · have hm := List.mem_filter.mp ha2
        exact hvalid a hm.1 (by simp [qualifiesWeekCol, hm.2])
      · obtain ⟨d, rfl⟩ := isTsCol_vdate ha2.2
        rfl
    obtain ⟨bs, hbs⟩ := mapO_isSome_of_forall hvalid_w
    have hdet : detect_week_cols cols =
        some (List.insertionSort valLE (addTsCols cols (cols.filter isPatternCol))) := by
      simp only [detect_week_cols]
      rw [hbs]
    rw [hdet]
    rfl
  · intro cols hnone
    have hpat : cols.filter isPatternCol = [] := by
      rw [List.filter_eq_nil_iff]
      intro a ha hpa
      have : a ∈ cols.filter qualifiesWeekCol :=
        List.mem_filter.mpr ⟨ha, by simp [qualifiesWeekCol, hpa]⟩
      rw [hnone] at this
      exact absurd this (List.not_mem_nil a)
    have hts : cols.filter isTsCol = [] := by
      rw [List.filter_eq_nil_iff]
      intro a ha hta
      have : a ∈ cols.filter qualifiesWeekCol :=
        List.mem_filter.mpr ⟨ha, by simp [qualifiesWeekCol, hta]⟩
      rw [hnone] at this
      exact absurd this (List.not_mem_nil a)
    have hcollect : addTsCols cols (cols.filter isPatternCol) = [] := by
      rw [addTsCols_no_collision cols _ ?_ (by rw [hts]; exact List.Pairwise.nil)]
      · rw [hpat, hts]
        rfl
      · intro d hd x hx
        have : Val.vdate d ∈ cols.filter isTsCol :=
          List.mem_filter.mpr ⟨hd, rfl⟩
        rw [hts] at this
        exact absurd this (List.not_mem_nil _)
    simp only [detect_week_cols, hcollect]
    rfl

/-- Witness for C9 amended: a one-column, one-row table yields a project
column, and a table with a single non-date header yields the empty
week-column list. -/
theorem C9_normalizer_total_amended_witness :
    (detect_project_col ⟨[Val.vstr "A"], [[Val.vstr "p1"]]⟩).isSome = true ∧
    detect_week_cols [Val.vstr "Project Full Name"] = some [] :=
  ⟨C9_normalizer_total_amended.1 ⟨[Val.vstr "A"], [[Val.vstr "p1"]]⟩
      (by decide) (by decide),
    C9_normalizer_total_amended.2.2.2 [Val.vstr "Project Full Name"] (by decide)⟩
